import Mathlib

/-!
# Verification of the Schengen 90/180 day-tracking engine

A shallow embedding of the engine found in `app.js` and its sibling variants:
the day-index codec (`parseYMD`, `toDayIndex`, `fromDayIndex`), the trip
normalizer (`clampTrip`, `normalizeTrips`), the sliding-window usage
calculator (`daysUsedLast180` / `computeUsedDays`, `remainingLast180`) and
the bounded forward simulators (`maxStayDays`, `latestExit`,
`nextSafeEntryDate`).

Calendar dates are embedded as day indices (integers counting days from the
Unix epoch, exactly as `toDayIndex` produces and as ECMAScript `Date.UTC`
arithmetic computes with a proleptic Gregorian calendar at UTC).  The civil
calendar arithmetic of the JavaScript `Date` built-in is modelled by
`shiftedOfCivil` / `civilFromShifted` below, working on a shifted day count
(days since 0000-03-01) so that all relevant values stay in `ℕ`; the model
is faithful for dates from 0000-03-01 through 9999-12-31, which covers every
value the engine can produce (the codec only accepts 4-digit years, and
years 0000–0099 are rejected because ECMAScript remaps two-digit years).
-/

/-! ## Civil calendar arithmetic (model of ECMAScript UTC date arithmetic) -/

/-- March-based month number: March ↦ 0, …, December ↦ 9, January ↦ 10,
February ↦ 11. -/
def monthShift (m : ℕ) : ℕ := if 2 < m then m - 3 else m + 9

/-- Day of the March-based year (0-based) of day `d` (1-based) in civil
month `m`.  Linear in `d`, so civil "day overflow" (e.g. February 30)
moves to later calendar days exactly as ECMAScript `MakeDay` does. -/
def doyOfMonthDay (m d : ℕ) : ℕ := (153 * monthShift m + 2) / 5 + d - 1

/-- Days strictly before year-of-era `yoe` within a 400-year era
(March-based reckoning). -/
def yearDaysF (yoe : ℕ) : ℕ := 365 * yoe + yoe / 4 - yoe / 100

/-- Length in days of the March-based year-of-era `yoe` (its February is the
February of calendar year `yoe + 1` within the era). -/
def yearLen (yoe : ℕ) : ℕ :=
  365 + (if (yoe + 1) % 4 = 0 ∧ ((yoe + 1) % 100 ≠ 0 ∨ (yoe + 1) % 400 = 0) then 1 else 0)

/-- Recover the year-of-era from a day-of-era `doe < 146097`. -/
def yoeFromDoe (doe : ℕ) : ℕ := (doe - doe / 1460 + doe / 36524 - doe / 146096) / 365

/-- Day count since 0000-03-01 of civil date `(y, m, d)` (proleptic
Gregorian); the Unix epoch 1970-01-01 is day 719468 of this count. -/
def shiftedOfCivil (y m d : ℕ) : ℕ :=
  let y' := y - (if m ≤ 2 then 1 else 0)
  146097 * (y' / 400) + yearDaysF (y' % 400) + doyOfMonthDay m d

/-- Civil date `(y, m, d)` of the day `n` days after 0000-03-01. -/
def civilFromShifted (n : ℕ) : ℕ × ℕ × ℕ :=
  let doe := n % 146097
  let yoe := yoeFromDoe doe
  let doy := doe - yearDaysF yoe
  let mp := (5 * doy + 2) / 153
  let d := doy - (153 * mp + 2) / 5 + 1
  let m := if mp < 10 then mp + 3 else mp - 9
  (400 * (n / 146097) + yoe + (if m ≤ 2 then 1 else 0), m, d)

section CalendarLemmas

set_option maxRecDepth 100000

/-- The year-length table is consistent with the day-count prefix sums. -/
theorem yearDaysF_succ : ∀ y : ℕ, y < 399 → yearDaysF (y + 1) = yearDaysF y + yearLen y := by
  decide

theorem yearDaysF_last : yearDaysF 399 + yearLen 399 = 146097 := by decide

theorem yearDaysF_add_len_le : ∀ y : ℕ, y < 400 → yearDaysF y + yearLen y ≤ 146097 := by
  decide

/-- `yoeFromDoe` is right at the first day of every year-of-era. -/
theorem yoeFromDoe_first : ∀ y : ℕ, y < 400 → yoeFromDoe (yearDaysF y) = y := by decide

/-- `yoeFromDoe` is right at the last day of every year-of-era. -/
theorem yoeFromDoe_last : ∀ y : ℕ, y < 400 →
    yoeFromDoe (yearDaysF y + yearLen y - 1) = y := by decide

/-- One monotonicity step of `yoeFromDoe` inside an era. -/
theorem yoeFromDoe_mono_step (x : ℕ) (h : x + 1 ≤ 146096) :
    yoeFromDoe x ≤ yoeFromDoe (x + 1) := by
  rcases Nat.lt_or_ge (x + 1) 146096 with h1 | h1
  · have hnum : x - x / 1460 + x / 36524 - x / 146096 ≤
        (x + 1) - (x + 1) / 1460 + (x + 1) / 36524 - (x + 1) / 146096 := by omega
    exact Nat.div_le_div_right hnum
  · have hx : x = 146095 := by omega
    subst hx
    decide

/-- `yoeFromDoe` is monotone on a 400-year era. -/
theorem yoeFromDoe_mono {a b : ℕ} (hab : a ≤ b) (hb : b ≤ 146096) :
    yoeFromDoe a ≤ yoeFromDoe b := by
  induction b with
  | zero => simp_all
  | succ m ih =>
    rcases Nat.lt_or_ge a (m + 1) with h | h
    · exact le_trans (ih (by omega) (by omega)) (yoeFromDoe_mono_step m hb)
    · have : a = m + 1 := by omega
      simp [this]

/-- Every day-of-era falls inside some year-of-era's run of days. -/
theorem doe_mem_year : ∀ doe : ℕ, doe < 146097 →
    ∃ y : ℕ, y < 400 ∧ yearDaysF y ≤ doe ∧ doe < yearDaysF y + yearLen y := by
  have aux : ∀ y : ℕ, y ≤ 399 → ∀ doe : ℕ, doe < yearDaysF y + yearLen y →
      ∃ y' : ℕ, y' ≤ y ∧ yearDaysF y' ≤ doe ∧ doe < yearDaysF y' + yearLen y' := by
    intro y
    induction y with
    | zero =>
      intro _ doe hdoe
      exact ⟨0, le_refl 0, Nat.zero_le doe, hdoe⟩
    | succ m ih =>
      intro hm doe hdoe
      rcases Nat.lt_or_ge doe (yearDaysF (m + 1)) with h | h
      · rw [yearDaysF_succ m (by omega)] at h
        obtain ⟨y', hy', h1, h2⟩ := ih (by omega) doe h
        exact ⟨y', by omega, h1, h2⟩
      · exact ⟨m + 1, le_refl _, h, hdoe⟩
  intro doe hdoe
  obtain ⟨y', hy', h1, h2⟩ := aux 399 (le_refl _) doe (by rw [yearDaysF_last]; exact hdoe)
  exact ⟨y', by omega, h1, h2⟩

/-- On its year's run of days, `yoeFromDoe` answers that year. -/
theorem yoeFromDoe_eq {doe y : ℕ} (hy : y < 400) (h1 : yearDaysF y ≤ doe)
    (h2 : doe < yearDaysF y + yearLen y) : yoeFromDoe doe = y := by
  have hle : yearDaysF y + yearLen y ≤ 146097 := yearDaysF_add_len_le y hy
  have hlen : 1 ≤ yearLen y := by unfold yearLen; split <;> omega
  have hlo : yoeFromDoe (yearDaysF y) ≤ yoeFromDoe doe :=
    yoeFromDoe_mono h1 (by omega)
  have hhi : yoeFromDoe doe ≤ yoeFromDoe (yearDaysF y + yearLen y - 1) :=
    yoeFromDoe_mono (by omega) (by omega)
  rw [yoeFromDoe_first y hy] at hlo
  rw [yoeFromDoe_last y hy] at hhi
  omega

/-- Decomposition of a day-of-era: its year-of-era and day-of-year bounds. -/
theorem doe_decomp (doe : ℕ) (hdoe : doe < 146097) :
    yoeFromDoe doe < 400 ∧ yearDaysF (yoeFromDoe doe) ≤ doe ∧
      doe < yearDaysF (yoeFromDoe doe) + yearLen (yoeFromDoe doe) := by
  obtain ⟨y, hy, h1, h2⟩ := doe_mem_year doe hdoe
  have := yoeFromDoe_eq hy h1 h2
  exact this ▸ ⟨hy, h1, h2⟩

/-- Within a year, the month/day extraction inverts `doyOfMonthDay`'s
March-based month table. -/
theorem month_extract : ∀ doy : ℕ, doy < 366 →
    ((5 * doy + 2) / 153 < 12 ∧ 1 ≤ doy - (153 * ((5 * doy + 2) / 153) + 2) / 5 + 1 ∧
      doy - (153 * ((5 * doy + 2) / 153) + 2) / 5 + 1 ≤ 31 ∧
      (153 * ((5 * doy + 2) / 153) + 2) / 5 ≤ doy) := by
  decide

/-- The civil month written by `civilFromShifted` maps back to its
March-based month number. -/
theorem monthShift_inv : ∀ mp : ℕ, mp < 12 →
    monthShift (if mp < 10 then mp + 3 else mp - 9) = mp := by decide

end CalendarLemmas

/-- The civil date of any shifted day count maps back to that day count:
`shiftedOfCivil` is a left inverse of `civilFromShifted`. -/
theorem shiftedOfCivil_civilFromShifted (n : ℕ) :
    shiftedOfCivil (civilFromShifted n).1 (civilFromShifted n).2.1
      (civilFromShifted n).2.2 = n := by
  have hdoe : n % 146097 < 146097 := Nat.mod_lt _ (by omega)
  obtain ⟨hy400, hlow, hhigh⟩ := doe_decomp (n % 146097) hdoe
  set doe := n % 146097 with hdoedef
  set yoe := yoeFromDoe doe with hyoedef
  set doy := doe - yearDaysF yoe with hdoydef
  have hdoylt : doy < 366 := by
    have hlen : yearLen yoe ≤ 366 := by unfold yearLen; split <;> omega
    omega
  obtain ⟨hmp12, hd1, hd31, hdoy5⟩ := month_extract doy hdoylt
  set mp := (5 * doy + 2) / 153 with hmpdef
  set d := doy - (153 * mp + 2) / 5 + 1 with hddef
  set m := if mp < 10 then mp + 3 else mp - 9 with hmdef
  have hm2 : (m ≤ 2) ↔ (10 ≤ mp) := by
    rw [hmdef]; split <;> omega
  have hcivil : civilFromShifted n =
      (400 * (n / 146097) + yoe + (if m ≤ 2 then 1 else 0), m, d) := rfl
  rw [hcivil]
  unfold shiftedOfCivil
  have hy' : 400 * (n / 146097) + yoe + (if m ≤ 2 then 1 else 0) -
      (if m ≤ 2 then 1 else 0) = 400 * (n / 146097) + yoe := by omega
  simp only [hy']
  have hdiv : (400 * (n / 146097) + yoe) / 400 = n / 146097 := by omega
  have hmod : (400 * (n / 146097) + yoe) % 400 = yoe := by omega
  rw [hdiv, hmod]
  unfold doyOfMonthDay
  rw [monthShift_inv mp hmp12]
  have hrecomp : (153 * mp + 2) / 5 + d - 1 = doy := by omega
  rw [hrecomp]
  omega

/-! ## Day-index codec (`parseYMD`, `toDayIndex`, `fromDayIndex`)

Embedding of `part_002`'s codec.  `jsUTCDays` models
`Math.floor(Date.UTC(y, mo - 1, d) / DAY_MS)`: ECMAScript remaps years
0–99 to 1900–1999, normalizes day overflow onto later calendar days, and
counts days from the Unix epoch (`Date.UTC` returns an exact multiple of
`DAY_MS` here, so the floored division is exact). -/

def jsUTCDays (y m d : ℕ) : ℤ :=
  (shiftedOfCivil (if y ≤ 99 then 1900 + y else y) m d : ℤ) - 719468

/-- Numeric value of a decimal digit character. -/
def digitVal (c : Char) : ℕ := c.toNat - 48

/-- `parseYMD`: match `^(\d{4})-(\d{2})-(\d{2})$`, require month 1–12 and
day 1–31, and require the `(y, mo, d)` triple to survive the round trip
through `Date.UTC` / `getUTC*` (which fails for calendrically impossible
days and for 4-digit years 0000–0099, remapped by ECMAScript). -/
def parseYMD (s : String) : Option (ℕ × ℕ × ℕ) :=
  match s.data with
  | [y1, y2, y3, y4, h1, m1, m2, h2, d1, d2] =>
    if y1.isDigit ∧ y2.isDigit ∧ y3.isDigit ∧ y4.isDigit ∧ h1 = '-' ∧
        m1.isDigit ∧ m2.isDigit ∧ h2 = '-' ∧ d1.isDigit ∧ d2.isDigit then
      let y := ((digitVal y1 * 10 + digitVal y2) * 10 + digitVal y3) * 10 + digitVal y4
      let mo := digitVal m1 * 10 + digitVal m2
      let d := digitVal d1 * 10 + digitVal d2
      if 1 ≤ mo ∧ mo ≤ 12 ∧ 1 ≤ d ∧ d ≤ 31 then
        if civilFromShifted (shiftedOfCivil (if y ≤ 99 then 1900 + y else y) mo d) =
            (y, mo, d)
        then some (y, mo, d) else none
      else none
    else none
  | _ => none

def toDayIndex (s : String) : Option ℤ :=
  (parseYMD s).map (fun t => jsUTCDays t.1 t.2.1 t.2.2)

/-- `fromDayIndex`: `new Date(i * DAY_MS).toISOString().slice(0, 10)`, the
zero-padded `YYYY-MM-DD` rendering of day `i`; faithful for days from
0000-03-01 through 9999-12-31, which covers every index the codec emits. -/
def fromDayIndex (i : ℤ) : String :=
  let c := civilFromShifted (i + 719468).toNat
  String.mk [Nat.digitChar (c.1 / 1000 % 10), Nat.digitChar (c.1 / 100 % 10),
    Nat.digitChar (c.1 / 10 % 10), Nat.digitChar (c.1 % 10), '-',
    Nat.digitChar (c.2.1 / 10 % 10), Nat.digitChar (c.2.1 % 10), '-',
    Nat.digitChar (c.2.2 / 10 % 10), Nat.digitChar (c.2.2 % 10)]

/-! ### Codec lemmas -/

theorem isDigit_bounds (c : Char) (h : c.isDigit = true) :
    48 ≤ c.toNat ∧ c.toNat ≤ 57 := by
  simp only [Char.isDigit, ge_iff_le, Bool.and_eq_true, decide_eq_true_eq] at h
  exact ⟨h.1, h.2⟩

theorem digitChar_ofNat : ∀ k : ℕ, k < 10 → Nat.digitChar k = Char.ofNat (48 + k) := by
  decide

theorem digitChar_digitVal (c : Char) (h : c.isDigit = true) :
    Nat.digitChar (digitVal c) = c := by
  obtain ⟨h1, h2⟩ := isDigit_bounds c h
  rw [digitChar_ofNat (digitVal c) (by unfold digitVal; omega)]
  have : 48 + digitVal c = c.toNat := by unfold digitVal; omega
  rw [this]
  exact Char.ofNat_toNat c

theorem digitVal_digitChar : ∀ k : ℕ, k < 10 → digitVal (Nat.digitChar k) = k := by
  decide

theorem digitChar_isDigit : ∀ k : ℕ, k < 10 → (Nat.digitChar k).isDigit = true := by
  decide


/-- The civil triple of any shifted day count: its month is within 1–12,
its day within 1–31, and `civilFromShifted` unfolds as stated. -/
theorem civil_components (n : ℕ) :
    ∃ era yoe doy mp : ℕ,
      era = n / 146097 ∧ yoe = yoeFromDoe (n % 146097) ∧
      yoe < 400 ∧ yearDaysF yoe ≤ n % 146097 ∧
      n % 146097 < yearDaysF yoe + yearLen yoe ∧
      doy = n % 146097 - yearDaysF yoe ∧ doy < 366 ∧
      mp = (5 * doy + 2) / 153 ∧ mp < 12 ∧
      (153 * mp + 2) / 5 ≤ doy ∧
      civilFromShifted n =
        (400 * era + yoe + (if (if mp < 10 then mp + 3 else mp - 9) ≤ 2 then 1 else 0),
         (if mp < 10 then mp + 3 else mp - 9),
         doy - (153 * mp + 2) / 5 + 1) ∧
      1 ≤ (civilFromShifted n).2.1 ∧ (civilFromShifted n).2.1 ≤ 12 ∧
      1 ≤ (civilFromShifted n).2.2 ∧ (civilFromShifted n).2.2 ≤ 31 := by
  have hdoe : n % 146097 < 146097 := Nat.mod_lt _ (by omega)
  obtain ⟨hy400, hlow, hhigh⟩ := doe_decomp (n % 146097) hdoe
  set doe := n % 146097 with hdoedef
  set yoe := yoeFromDoe doe with hyoedef
  set doy := doe - yearDaysF yoe with hdoydef
  have hdoylt : doy < 366 := by
    have hlen : yearLen yoe ≤ 366 := by unfold yearLen; split <;> omega
    omega
  obtain ⟨hmp12, hd1, hd31, hdoy5⟩ := month_extract doy hdoylt
  set mp := (5 * doy + 2) / 153 with hmpdef
  have hcivil : civilFromShifted n =
      (400 * (n / 146097) + yoe + (if (if mp < 10 then mp + 3 else mp - 9) ≤ 2 then 1 else 0),
       (if mp < 10 then mp + 3 else mp - 9),
       doy - (153 * mp + 2) / 5 + 1) := rfl
  refine ⟨n / 146097, yoe, doy, mp, rfl, rfl, hy400, hlow, hhigh, rfl, hdoylt, rfl, hmp12,
    hdoy5, hcivil, ?_, ?_, ?_, ?_⟩ <;> rw [hcivil] <;> dsimp only <;> [skip; skip; omega; omega]
  · split <;> omega
  · split <;> omega

/-- Years of shifted days from 1600-03-01 on are at least 1600. -/
theorem civil_year_lb (n : ℕ) (h : 584388 ≤ n) : 1600 ≤ (civilFromShifted n).1 := by
  obtain ⟨era, yoe, doy, mp, hera, _, _, _, _, _, _, _, _, _, hcivil, _⟩ :=
    civil_components n
  rw [hcivil]
  have : 4 ≤ era := by omega
  dsimp only
  omega

/-- Shifted days up to 9999-12-31 (day 3652364) have year at most 9999. -/
theorem civil_year_ub (n : ℕ) (h : n ≤ 3652364) : (civilFromShifted n).1 ≤ 9999 := by
  obtain ⟨era, yoe, doy, mp, hera, hyoe, hy400, hlow, hhigh, hdoy, hdoylt, hmp, hmp12,
    hdoy5, hcivil, _⟩ := civil_components n
  rw [hcivil]
  dsimp only
  rcases Nat.lt_or_ge era 24 with h23 | h24
  · split <;> split <;> omega
  · have hera24 : era = 24 := by omega
    have hdoe24 : n % 146097 ≤ 146036 := by omega
    rcases Nat.lt_or_ge yoe 399 with hy | hy
    · split <;> split <;> omega
    · have hy399 : yoe = 399 := by omega
      have hf399 : yearDaysF 399 = 145731 := by decide
      have hdoyb : doy ≤ 305 := by rw [hdoy, hy399, hf399]; omega
      have hmpb : mp ≤ 9 := by
        have h1 : 5 * doy + 2 ≤ 1527 := by omega
        have h2 : (5 * doy + 2) / 153 ≤ 1527 / 153 := Nat.div_le_div_right h1
        norm_num at h2
        omega
      have h10 : mp < 10 := by omega
      rw [if_pos h10, if_neg (by omega)]
      omega

/-- Parsing the canonical zero-padded rendering of an acceptable civil
triple gives back that triple. -/
theorem parseYMD_render (y mo d : ℕ) (hy1 : 100 ≤ y) (hy2 : y ≤ 9999)
    (hmo1 : 1 ≤ mo) (hmo2 : mo ≤ 12) (hd1 : 1 ≤ d) (hd2 : d ≤ 31)
    (hacc : civilFromShifted (shiftedOfCivil y mo d) = (y, mo, d)) :
    parseYMD (String.mk [Nat.digitChar (y / 1000 % 10), Nat.digitChar (y / 100 % 10),
      Nat.digitChar (y / 10 % 10), Nat.digitChar (y % 10), '-',
      Nat.digitChar (mo / 10 % 10), Nat.digitChar (mo % 10), '-',
      Nat.digitChar (d / 10 % 10), Nat.digitChar (d % 10)]) = some (y, mo, d) := by
  have hdig : ∀ k : ℕ, k % 10 < 10 := fun k => Nat.mod_lt _ (by omega)
  have hvy1 := digitVal_digitChar _ (hdig (y / 1000))
  have hvy2 := digitVal_digitChar _ (hdig (y / 100))
  have hvy3 := digitVal_digitChar _ (hdig (y / 10))
  have hvy4 := digitVal_digitChar _ (hdig y)
  have hvm1 := digitVal_digitChar _ (hdig (mo / 10))
  have hvm2 := digitVal_digitChar _ (hdig mo)
  have hvd1 := digitVal_digitChar _ (hdig (d / 10))
  have hvd2 := digitVal_digitChar _ (hdig d)
  show parseYMD ⟨_⟩ = _
  unfold parseYMD
  dsimp only
  rw [if_pos ⟨digitChar_isDigit _ (hdig (y / 1000)), digitChar_isDigit _ (hdig (y / 100)),
    digitChar_isDigit _ (hdig (y / 10)), digitChar_isDigit _ (hdig y), rfl,
    digitChar_isDigit _ (hdig (mo / 10)), digitChar_isDigit _ (hdig mo), rfl,
    digitChar_isDigit _ (hdig (d / 10)), digitChar_isDigit _ (hdig d)⟩]
  rw [hvy1, hvy2, hvy3, hvy4, hvm1, hvm2, hvd1, hvd2]
  have hyv : ((y / 1000 % 10 * 10 + y / 100 % 10) * 10 + y / 10 % 10) * 10 + y % 10 = y := by
    omega
  have hmov : mo / 10 % 10 * 10 + mo % 10 = mo := by omega
  have hdv : d / 10 % 10 * 10 + d % 10 = d := by omega
  rw [hyv, hmov, hdv]
  rw [if_pos ⟨hmo1, hmo2, hd1, hd2⟩]
  have hrem : (if y ≤ 99 then 1900 + y else y) = y := if_neg (by omega)
  rw [hrem, if_pos hacc]

/-- Inversion of `parseYMD`: an accepted string is exactly the canonical
zero-padded rendering of its triple, the triple is within syntactic bounds,
the year is 4-digit and at least 0100, and the triple survives the civil
round trip. -/
theorem parseYMD_inv (s : String) (y mo d : ℕ) (h : parseYMD s = some (y, mo, d)) :
    100 ≤ y ∧ y ≤ 9999 ∧ 1 ≤ mo ∧ mo ≤ 12 ∧ 1 ≤ d ∧ d ≤ 31 ∧
      civilFromShifted (shiftedOfCivil y mo d) = (y, mo, d) ∧
      s = String.mk [Nat.digitChar (y / 1000 % 10), Nat.digitChar (y / 100 % 10),
        Nat.digitChar (y / 10 % 10), Nat.digitChar (y % 10), '-',
        Nat.digitChar (mo / 10 % 10), Nat.digitChar (mo % 10), '-',
        Nat.digitChar (d / 10 % 10), Nat.digitChar (d % 10)] := by
  obtain ⟨l⟩ := s
  rcases l with _ | ⟨c1, l⟩; · exact absurd h (by simp [parseYMD])
  rcases l with _ | ⟨c2, l⟩; · exact absurd h (by simp [parseYMD])
  rcases l with _ | ⟨c3, l⟩; · exact absurd h (by simp [parseYMD])
  rcases l with _ | ⟨c4, l⟩; · exact absurd h (by simp [parseYMD])
  rcases l with _ | ⟨c5, l⟩; · exact absurd h (by simp [parseYMD])
  rcases l with _ | ⟨c6, l⟩; · exact absurd h (by simp [parseYMD])
  rcases l with _ | ⟨c7, l⟩; · exact absurd h (by simp [parseYMD])
  rcases l with _ | ⟨c8, l⟩; · exact absurd h (by simp [parseYMD])
  rcases l with _ | ⟨c9, l⟩; · exact absurd h (by simp [parseYMD])
  rcases l with _ | ⟨c10, l⟩; · exact absurd h (by simp [parseYMD])
  rcases l with _ | ⟨c11, l⟩
  swap
  · exact absurd h (by simp [parseYMD])
  unfold parseYMD at h
  dsimp only at h
  split at h
  swap
  · simp at h
  split at h
  swap
  · simp at h
  rename_i hdig hbounds
  obtain ⟨hg1, hg2, hg3, hg4, hdash1, hg5, hg6, hdash2, hg7, hg8⟩ := hdig
  obtain ⟨hb1, hb2, hb3, hb4⟩ := hbounds
  have hv1 := isDigit_bounds c1 hg1
  have hv2 := isDigit_bounds c2 hg2
  have hv3 := isDigit_bounds c3 hg3
  have hv4 := isDigit_bounds c4 hg4
  have hv5 := isDigit_bounds c6 hg5
  have hv6 := isDigit_bounds c7 hg6
  have hv7 := isDigit_bounds c9 hg7
  have hv8 := isDigit_bounds c10 hg8
  have hdv : ∀ c : Char, 48 ≤ c.toNat → c.toNat ≤ 57 → digitVal c ≤ 9 := by
    intro c hc1 hc2; unfold digitVal; omega
  have hd1 := hdv c1 hv1.1 hv1.2
  have hd2 := hdv c2 hv2.1 hv2.2
  have hd3 := hdv c3 hv3.1 hv3.2
  have hd4 := hdv c4 hv4.1 hv4.2
  have hd5 := hdv c6 hv5.1 hv5.2
  have hd6 := hdv c7 hv6.1 hv6.2
  have hd7 := hdv c9 hv7.1 hv7.2
  have hd8 := hdv c10 hv8.1 hv8.2
  split at h
  · -- the ECMAScript two-digit-year remap branch: acceptance is impossible
    rename_i hle99
    exfalso
    split at h
    swap
    · simp at h
    rename_i hacc
    have hshift : 584388 ≤ shiftedOfCivil
        (1900 + (((digitVal c1 * 10 + digitVal c2) * 10 + digitVal c3) * 10 + digitVal c4))
        (digitVal c6 * 10 + digitVal c7) (digitVal c9 * 10 + digitVal c10) := by
      simp only [shiftedOfCivil]
      have h4 : (1900 + (((digitVal c1 * 10 + digitVal c2) * 10 + digitVal c3) * 10 +
          digitVal c4) - (if digitVal c6 * 10 + digitVal c7 ≤ 2 then 1 else 0)) / 400 ≥ 4 := by
        split <;> omega
      have hmul := Nat.mul_le_mul_left 146097 h4
      omega
    have hlb := civil_year_lb _ hshift
    rw [hacc] at hlb
    dsimp only at hlb
    omega
  · rename_i hgt99
    split at h
    swap
    · simp at h
    rename_i hacc
    simp only [Option.some.injEq, Prod.mk.injEq] at h
    obtain ⟨hy, hmo, hd⟩ := h
    subst hy hmo hd
    refine ⟨by omega, by omega, hb1, hb2, hb3, hb4, hacc, ?_⟩
    have hchar : ∀ c : Char, c.isDigit = true → ∀ k : ℕ, digitVal c = k →
        Nat.digitChar k = c := by
      intro c hc k hk
      rw [← hk]; exact digitChar_digitVal c hc
    have e1 := hchar c1 hg1 _ (by omega :
      digitVal c1 = (((digitVal c1 * 10 + digitVal c2) * 10 + digitVal c3) * 10 +
        digitVal c4) / 1000 % 10)
    have e2 := hchar c2 hg2 _ (by omega :
      digitVal c2 = (((digitVal c1 * 10 + digitVal c2) * 10 + digitVal c3) * 10 +
        digitVal c4) / 100 % 10)
    have e3 := hchar c3 hg3 _ (by omega :
      digitVal c3 = (((digitVal c1 * 10 + digitVal c2) * 10 + digitVal c3) * 10 +
        digitVal c4) / 10 % 10)
    have e4 := hchar c4 hg4 _ (by omega :
      digitVal c4 = (((digitVal c1 * 10 + digitVal c2) * 10 + digitVal c3) * 10 +
        digitVal c4) % 10)
    have e5 := hchar c6 hg5 _ (by omega :
      digitVal c6 = (digitVal c6 * 10 + digitVal c7) / 10 % 10)
    have e6 := hchar c7 hg6 _ (by omega :
      digitVal c7 = (digitVal c6 * 10 + digitVal c7) % 10)
    have e7 := hchar c9 hg7 _ (by omega :
      digitVal c9 = (digitVal c9 * 10 + digitVal c10) / 10 % 10)
    have e8 := hchar c10 hg8 _ (by omega :
      digitVal c10 = (digitVal c9 * 10 + digitVal c10) % 10)
    rw [e1, e2, e3, e4, e5, e6, e7, e8, hdash1, hdash2]

/-- Any index emitted by `toDayIndex` renders back (via `fromDayIndex`) to
the exact string it was parsed from, and that rendering re-parses to the
same index. -/
theorem toDayIndex_some_roundtrip (s : String) (i : ℤ) (h : toDayIndex s = some i) :
    fromDayIndex i = s ∧ toDayIndex (fromDayIndex i) = some i := by
  unfold toDayIndex at h
  rcases hp : parseYMD s with _ | ⟨⟨y, mo, d⟩⟩ <;> rw [hp] at h
  · simp at h
  simp only [Option.map_some', Option.some.injEq] at h
  obtain ⟨hy100, hy9999, hmo1, hmo2, hd1, hd31, hacc, hsdata⟩ := parseYMD_inv s y mo d hp
  have hjs : jsUTCDays y mo d = (shiftedOfCivil y mo d : ℤ) - 719468 := by
    unfold jsUTCDays
    rw [if_neg (by omega : ¬ y ≤ 99)]
  rw [hjs] at h
  have htn : (i + 719468).toNat = shiftedOfCivil y mo d := by omega
  have hrender : fromDayIndex i = String.mk [Nat.digitChar (y / 1000 % 10),
      Nat.digitChar (y / 100 % 10), Nat.digitChar (y / 10 % 10), Nat.digitChar (y % 10), '-',
      Nat.digitChar (mo / 10 % 10), Nat.digitChar (mo % 10), '-',
      Nat.digitChar (d / 10 % 10), Nat.digitChar (d % 10)] := by
    unfold fromDayIndex
    rw [htn, hacc]
  constructor
  · rw [hrender, hsdata]
  · rw [hrender]
    unfold toDayIndex
    rw [parseYMD_render y mo d hy100 hy9999 hmo1 hmo2 hd1 hd31 hacc]
    simp only [Option.map_some', Option.some.injEq]
    rw [hjs]
    omega

/-- Every day index in the representable range (1970-01-01 through
9999-12-31) survives the render/parse round trip. -/
theorem fromDayIndex_roundtrip (i : ℤ) (h0 : 0 ≤ i) (h1 : i ≤ 2932896) :
    toDayIndex (fromDayIndex i) = some i := by
  set n : ℕ := (i + 719468).toNat with hn
  have hni : (n : ℤ) = i + 719468 := by omega
  have hnlb : 719468 ≤ n := by omega
  have hnub : n ≤ 3652364 := by omega
  obtain ⟨era, yoe, doy, mp, _, _, _, _, _, _, _, _, _, _, hcivil, hm1, hm12, hdd1, hdd31⟩ :=
    civil_components n
  have hylb : 100 ≤ (civilFromShifted n).1 := le_trans (by omega) (civil_year_lb n (by omega))
  have hyub : (civilFromShifted n).1 ≤ 9999 := civil_year_ub n hnub
  have hinv : shiftedOfCivil (civilFromShifted n).1 (civilFromShifted n).2.1
      (civilFromShifted n).2.2 = n := shiftedOfCivil_civilFromShifted n
  have hacc : civilFromShifted (shiftedOfCivil (civilFromShifted n).1
      (civilFromShifted n).2.1 (civilFromShifted n).2.2) =
      ((civilFromShifted n).1, (civilFromShifted n).2.1, (civilFromShifted n).2.2) := by
    rw [hinv]
  have hrender : fromDayIndex i = String.mk
      [Nat.digitChar ((civilFromShifted n).1 / 1000 % 10),
       Nat.digitChar ((civilFromShifted n).1 / 100 % 10),
       Nat.digitChar ((civilFromShifted n).1 / 10 % 10),
       Nat.digitChar ((civilFromShifted n).1 % 10), '-',
       Nat.digitChar ((civilFromShifted n).2.1 / 10 % 10),
       Nat.digitChar ((civilFromShifted n).2.1 % 10), '-',
       Nat.digitChar ((civilFromShifted n).2.2 / 10 % 10),
       Nat.digitChar ((civilFromShifted n).2.2 % 10)] := rfl
  rw [hrender]
  unfold toDayIndex
  rw [parseYMD_render _ _ _ hylb hyub hm1 hm12 hdd1 hdd31 hacc]
  simp only [Option.map_some']
  unfold jsUTCDays
  rw [if_neg (by omega : ¬ (civilFromShifted n).1 ≤ 99), hinv]
  congr 1
  omega

/-! ## The rule-evaluation engine on day indices

Embedding of `app.js` (lines 51–139).  JavaScript `Date` values normalized
to local midnight are represented by their day numbers (the spec fixes
whole-day granularity), so `clampTrip`, `normalizeTrips`,
`daysUsedLast180`, `remainingLast180`, `maxStayDays`, `latestExit` and
`nextSafeEntryDate` become functions over `ℤ` day indices.  The JavaScript
array sort with comparator `(a, b) => a.entry - b.entry` is stable
(ES2019), hence it is the stable sort by entry, `List.insertionSort`. -/

def clampTrip (p : ℤ × ℤ) : ℤ × ℤ := if p.1 ≤ p.2 then p else (p.2, p.1)

/-- Comparison by `entry`, the sort key of `normalizeTrips`. -/
def entryLE (a b : ℤ × ℤ) : Prop := a.1 ≤ b.1

instance : DecidableRel entryLE := fun a b => inferInstanceAs (Decidable (a.1 ≤ b.1))

instance : IsTotal (ℤ × ℤ) entryLE := ⟨fun a b => le_total a.1 b.1⟩

instance : IsTrans (ℤ × ℤ) entryLE := ⟨fun _ _ _ h1 h2 => le_trans h1 h2⟩

/-- The sweep of `normalizeTrips`' merge loop: `cur` is the interval being
grown (`merged[merged.length - 1]`), overlapping-or-adjacent intervals
extend its exit to the max, anything else closes it out. -/
def mergeRun : ℤ × ℤ → List (ℤ × ℤ) → List (ℤ × ℤ)
  | cur, [] => [cur]
  | cur, p :: rest =>
    if p.1 ≤ cur.2 + 1 then mergeRun (cur.1, max cur.2 p.2) rest
    else cur :: mergeRun p rest

/-- Merge a sorted list of canonical intervals (empty input gives `[]`,
otherwise the first element seeds the sweep). -/
def mergeSorted : List (ℤ × ℤ) → List (ℤ × ℤ)
  | [] => []
  | h :: t => mergeRun h t

/-- `normalizeTrips` of `app.js`: canonicalize each pair, sort by entry,
sweep-merge. -/
def normalizeTrips (l : List (ℤ × ℤ)) : List (ℤ × ℤ) :=
  mergeSorted (List.insertionSort entryLE (l.map clampTrip))

/-- `daysInclusive`: 0 for an inverted range, else both endpoints count. -/
def daysInclusive (a b : ℤ) : ℤ := if b < a then 0 else b - a + 1

/-- Inclusive overlap of `[aS, aE]` and `[bS, bE]`. -/
def overlapDaysInclusive (aS aE bS bE : ℤ) : ℤ :=
  if max aS bS > min aE bE then 0 else daysInclusive (max aS bS) (min aE bE)

/-- `daysUsedLast180`: normalize the trips, then sum each interval's
inclusive overlap with the window `[ref - 179, ref]`. -/
def daysUsedLast180 (ref : ℤ) (t : List (ℤ × ℤ)) : ℤ :=
  ((normalizeTrips t).map (fun p => overlapDaysInclusive (ref - 179) ref p.1 p.2)).sum

def remainingLast180 (ref : ℤ) (t : List (ℤ × ℤ)) : ℤ :=
  max 0 (90 - daysUsedLast180 ref t)

/-- The body of `maxStayDays`' bounded loop, with the remaining iteration
count explicit: entering with `days = 0, fuel = 366` runs
`for (; days < 366; days++)` and returns `Math.max(0, days - 1)` (which is
`days - 1` in `ℕ`) at the first violation or at bound exhaustion. -/
def maxStayLoop (entry : ℤ) (t : List (ℤ × ℤ)) : ℕ → ℕ → ℕ
  | days, 0 => days - 1
  | days, fuel + 1 =>
    if 90 < daysUsedLast180 (entry + days) t +
        overlapDaysInclusive (entry + days - 179) (entry + days) entry (entry + days) then
      days - 1
    else maxStayLoop entry t (days + 1) fuel

def maxStayDays (entry : ℤ) (t : List (ℤ × ℤ)) : ℕ := maxStayLoop entry t 0 366

/-- `latestExit`: `null` (here `none`) when no stay is possible, else the
exit date `entry + maxStayDays - 1`. -/
def latestExit (entry : ℤ) (t : List (ℤ × ℤ)) : Option ℤ :=
  if maxStayDays entry t ≤ 0 then none else some (entry + (maxStayDays entry t : ℤ) - 1)

/-- The body of `nextSafeEntryDate`'s bounded loop (730 iterations),
falling back to the unchanged start day when the fuel runs out. -/
def nextSafeLoop (start : ℤ) (t : List (ℤ × ℤ)) : ℤ → ℕ → ℤ
  | _, 0 => start
  | day, fuel + 1 =>
    if 0 < remainingLast180 day t then day else nextSafeLoop start t (day + 1) fuel

def nextSafeEntryDate (start : ℤ) (t : List (ℤ × ℤ)) : ℤ :=
  nextSafeLoop start t start 730

/-! ### Normalizer lemmas -/

/-- `mergeRun` always emits a first interval that keeps the current entry
and can only have grown the current exit. -/
theorem mergeRun_head : ∀ (l : List (ℤ × ℤ)) (cur : ℤ × ℤ),
    ∃ b tl, mergeRun cur l = (cur.1, b) :: tl ∧ cur.2 ≤ b := by
  intro l
  induction l with
  | nil => exact fun cur => ⟨cur.2, [], rfl, le_refl _⟩
  | cons p rest ih =>
    intro cur
    unfold mergeRun
    split
    · obtain ⟨b, tl, heq, hle⟩ := ih (cur.1, max cur.2 p.2)
      exact ⟨b, tl, heq, le_trans (le_max_left _ _) hle⟩
    · exact ⟨cur.2, mergeRun p rest, rfl, le_refl _⟩

/-- Sweep-merging a sorted run of canonical intervals yields canonical
intervals separated by a strict gap of at least one full day. -/
theorem mergeRun_invariant : ∀ (l : List (ℤ × ℤ)) (cur : ℤ × ℤ),
    cur.1 ≤ cur.2 → (∀ p ∈ l, p.1 ≤ p.2) → List.Chain' entryLE (cur :: l) →
    (∀ p ∈ mergeRun cur l, p.1 ≤ p.2) ∧
      List.Chain' (fun a b => a.2 + 1 < b.1) (mergeRun cur l) := by
  intro l
  induction l with
  | nil =>
    intro cur hcur _ _
    refine ⟨?_, ?_⟩
    · intro p hp
      rw [mergeRun] at hp
      simp only [List.mem_singleton] at hp
      exact hp ▸ hcur
    · exact List.chain'_singleton _
  | cons p rest ih =>
    intro cur hcur hall hchain
    rw [List.chain'_cons] at hchain
    obtain ⟨hcp, hchain'⟩ := hchain
    unfold mergeRun
    split
    · rename_i hmerge
      apply ih (cur.1, max cur.2 p.2)
      · exact le_trans hcur (le_max_left _ _)
      · exact fun q hq => hall q (List.mem_cons_of_mem p hq)
      · rcases rest with _ | ⟨q, rest'⟩
        · exact List.chain'_singleton _
        · rw [List.chain'_cons] at hchain' ⊢
          exact ⟨le_trans hcp hchain'.1, hchain'.2⟩
    · rename_i hgap
      obtain ⟨ihall, ihchain⟩ := ih p (hall p (List.mem_cons_self p rest))
        (fun q hq => hall q (List.mem_cons_of_mem p hq)) hchain'
      refine ⟨?_, ?_⟩
      · intro q hq
        rcases List.mem_cons.mp hq with h | h
        · exact h ▸ hcur
        · exact ihall q h
      · obtain ⟨b, tl, heq, _⟩ := mergeRun_head rest p
        rw [heq]
        rw [heq] at ihchain
        exact List.Chain'.cons (by dsimp only; omega) ihchain

/-- Sweep-merging preserves the set of covered days. -/
theorem mergeRun_covered (x : ℤ) : ∀ (l : List (ℤ × ℤ)) (cur : ℤ × ℤ),
    List.Chain' entryLE (cur :: l) →
    ((∃ p ∈ mergeRun cur l, p.1 ≤ x ∧ x ≤ p.2) ↔ ∃ p ∈ cur :: l, p.1 ≤ x ∧ x ≤ p.2) := by
  intro l
  induction l with
  | nil => intro cur _; rw [mergeRun]
  | cons p rest ih =>
    intro cur hchain
    rw [List.chain'_cons] at hchain
    obtain ⟨hcp, hchain'⟩ := hchain
    have hcp' : cur.1 ≤ p.1 := hcp
    have hmax1 : cur.2 ≤ max cur.2 p.2 := le_max_left _ _
    have hmax2 : p.2 ≤ max cur.2 p.2 := le_max_right _ _
    have hmax3 : max cur.2 p.2 = cur.2 ∨ max cur.2 p.2 = p.2 := max_choice _ _
    unfold mergeRun
    split
    · rename_i hmerge
      have hchain2 : List.Chain' entryLE ((cur.1, max cur.2 p.2) :: rest) := by
        rcases rest with _ | ⟨q, rest'⟩
        · exact List.chain'_singleton _
        · rw [List.chain'_cons] at hchain' ⊢
          exact ⟨le_trans hcp hchain'.1, hchain'.2⟩
      rw [ih (cur.1, max cur.2 p.2) hchain2]
      simp only [List.mem_cons]
      constructor
      · rintro ⟨q, hq, hx1, hx2⟩
        rcases hq with rfl | hq
        · dsimp only at hx1 hx2
          rcases le_or_lt x cur.2 with hc | hc
          · exact ⟨cur, Or.inl rfl, hx1, hc⟩
          · refine ⟨p, Or.inr (Or.inl rfl), by omega, by omega⟩
        · exact ⟨q, Or.inr (Or.inr hq), hx1, hx2⟩
      · rintro ⟨q, hq, hx1, hx2⟩
        rcases hq with rfl | rfl | hq
        · exact ⟨(q.1, max q.2 p.2), Or.inl rfl, hx1, le_trans hx2 (le_max_left _ _)⟩
        · exact ⟨(cur.1, max cur.2 q.2), Or.inl rfl, by dsimp only; omega,
            by dsimp only; omega⟩
        · exact ⟨q, Or.inr hq, hx1, hx2⟩
    · rename_i hgap
      constructor
      · rintro ⟨q, hq, hx⟩
        rcases List.mem_cons.mp hq with rfl | hq
        · exact ⟨q, List.mem_cons_self _ _, hx⟩
        · obtain ⟨q', hq', hx'⟩ := (ih p hchain').mp ⟨q, hq, hx⟩
          exact ⟨q', List.mem_cons_of_mem _ hq', hx'⟩
      · rintro ⟨q, hq, hx⟩
        rcases List.mem_cons.mp hq with rfl | hq
        · exact ⟨q, List.mem_cons_self _ _, hx⟩
        · obtain ⟨q', hq', hx'⟩ := (ih p hchain').mpr ⟨q, hq, hx⟩
          exact ⟨q', List.mem_cons_of_mem _ hq', hx'⟩

/-- Every coordinate of the sweep-merged list already occurs as a
coordinate of the input run. -/
theorem mergeRun_coords (P : ℤ → Prop) : ∀ (l : List (ℤ × ℤ)) (cur : ℤ × ℤ),
    P cur.1 → P cur.2 → (∀ q ∈ l, P q.1 ∧ P q.2) →
    ∀ p ∈ mergeRun cur l, P p.1 ∧ P p.2 := by
  intro l
  induction l with
  | nil =>
    intro cur h1 h2 _ p hp
    rw [mergeRun] at hp
    simp only [List.mem_singleton] at hp
    exact hp ▸ ⟨h1, h2⟩
  | cons q rest ih =>
    intro cur h1 h2 hall p hp
    rw [mergeRun] at hp
    split at hp
    · refine ih (cur.1, max cur.2 q.2) h1 ?_ (fun r hr => hall r (List.mem_cons_of_mem q hr)) p hp
      rcases max_choice cur.2 q.2 with hm | hm
      · rw [hm]; exact h2
      · rw [hm]; exact (hall q (List.mem_cons_self q rest)).2
    · rcases List.mem_cons.mp hp with rfl | hp'
      · exact ⟨h1, h2⟩
      · exact ih q (hall q (List.mem_cons_self q rest)).1 (hall q (List.mem_cons_self q rest)).2
          (fun r hr => hall r (List.mem_cons_of_mem q hr)) p hp'

/-- Sweep-merging a gap-separated run changes nothing. -/
theorem mergeRun_eq_self : ∀ (l : List (ℤ × ℤ)) (cur : ℤ × ℤ),
    List.Chain' (fun a b => a.2 + 1 < b.1) (cur :: l) → mergeRun cur l = cur :: l := by
  intro l
  induction l with
  | nil => intro cur _; rfl
  | cons p rest ih =>
    intro cur hchain
    rw [List.chain'_cons] at hchain
    rw [mergeRun, if_neg (by omega), ih p hchain.2]

/-- `clampTrip` canonicalizes: entry ≤ exit always holds afterwards. -/
theorem clampTrip_canon (p : ℤ × ℤ) : (clampTrip p).1 ≤ (clampTrip p).2 := by
  unfold clampTrip
  split
  · omega
  · show p.2 ≤ p.1
    omega

/-- Sorting then sweep-merging a list of canonical intervals yields
canonical, gap-separated intervals. -/
theorem normalizeCore_invariant (l : List (ℤ × ℤ)) (hc : ∀ p ∈ l, p.1 ≤ p.2) :
    (∀ p ∈ mergeSorted (List.insertionSort entryLE l), p.1 ≤ p.2) ∧
      List.Chain' (fun a b => a.2 + 1 < b.1) (mergeSorted (List.insertionSort entryLE l)) := by
  have hsorted : List.Sorted entryLE (List.insertionSort entryLE l) :=
    List.sorted_insertionSort entryLE l
  have hmem : ∀ p ∈ List.insertionSort entryLE l, p.1 ≤ p.2 := fun p hp =>
    hc p ((List.perm_insertionSort entryLE l).mem_iff.mp hp)
  rcases hsort : List.insertionSort entryLE l with _ | ⟨h, t⟩
  · exact ⟨by simp [mergeSorted], by simp [mergeSorted]⟩
  · rw [hsort] at hsorted hmem
    show (∀ p ∈ mergeRun h t, p.1 ≤ p.2) ∧ _
    exact mergeRun_invariant t h (hmem h (List.mem_cons_self h t))
      (fun p hp => hmem p (List.mem_cons_of_mem h hp)) hsorted.chain'

/-- Sorting then sweep-merging preserves the set of covered days. -/
theorem normalizeCore_covered (x : ℤ) (l : List (ℤ × ℤ)) :
    (∃ p ∈ mergeSorted (List.insertionSort entryLE l), p.1 ≤ x ∧ x ≤ p.2) ↔
      ∃ p ∈ l, p.1 ≤ x ∧ x ≤ p.2 := by
  have hperm := List.perm_insertionSort entryLE l
  have hsorted : List.Sorted entryLE (List.insertionSort entryLE l) :=
    List.sorted_insertionSort entryLE l
  rcases hsort : List.insertionSort entryLE l with _ | ⟨h, t⟩
  · rw [hsort] at hperm
    have : l = [] := hperm.nil_eq.symm
    subst this
    simp [mergeSorted]
  · rw [hsort] at hperm hsorted
    show (∃ p ∈ mergeRun h t, p.1 ≤ x ∧ x ≤ p.2) ↔ _
    rw [mergeRun_covered x t h hsorted.chain']
    constructor
    · rintro ⟨p, hp, hx⟩
      exact ⟨p, hperm.mem_iff.mp hp, hx⟩
    · rintro ⟨p, hp, hx⟩
      exact ⟨p, hperm.mem_iff.mpr hp, hx⟩

/-- Every coordinate of the normalized output occurs as a coordinate of
the canonicalized input. -/
theorem normalizeCore_coords (P : ℤ → Prop) (l : List (ℤ × ℤ))
    (hc : ∀ p ∈ l, P p.1 ∧ P p.2) :
    ∀ p ∈ mergeSorted (List.insertionSort entryLE l), P p.1 ∧ P p.2 := by
  have hmem : ∀ p ∈ List.insertionSort entryLE l, P p.1 ∧ P p.2 := fun p hp =>
    hc p ((List.perm_insertionSort entryLE l).mem_iff.mp hp)
  rcases hsort : List.insertionSort entryLE l with _ | ⟨h, t⟩
  · intro p hp; simp [mergeSorted] at hp
  · rw [hsort] at hmem
    show ∀ p ∈ mergeRun h t, P p.1 ∧ P p.2
    exact mergeRun_coords P t h (hmem h (List.mem_cons_self h t)).1
      (hmem h (List.mem_cons_self h t)).2
      (fun q hq => hmem q (List.mem_cons_of_mem h hq))

/-- A canonical gap-separated list is sorted by entry. -/
theorem chain_entryLE_of_gap : ∀ l : List (ℤ × ℤ), (∀ p ∈ l, p.1 ≤ p.2) →
    List.Chain' (fun a b => a.2 + 1 < b.1) l → List.Chain' entryLE l := by
  intro l
  induction l with
  | nil => intro _ _; exact List.chain'_nil
  | cons a t ih =>
    intro hc hg
    rcases t with _ | ⟨b, t'⟩
    · exact List.chain'_singleton _
    · rw [List.chain'_cons] at hg ⊢
      refine ⟨?_, ih (fun p hp => hc p (List.mem_cons_of_mem a hp)) hg.2⟩
      have := hc a (List.mem_cons_self a _)
      show a.1 ≤ b.1
      omega

/-- Mapping `clampTrip` over an already-canonical list changes nothing. -/
theorem map_clampTrip_eq_self : ∀ l : List (ℤ × ℤ), (∀ p ∈ l, p.1 ≤ p.2) →
    l.map clampTrip = l := by
  intro l
  induction l with
  | nil => intro _; rfl
  | cons a t ih =>
    intro hc
    rw [List.map_cons, ih (fun p hp => hc p (List.mem_cons_of_mem a hp))]
    have ha := hc a (List.mem_cons_self a _)
    rw [clampTrip, if_pos ha]

/-! ### Window-evaluator and simulator lemmas -/

theorem overlapDaysInclusive_nonneg (aS aE bS bE : ℤ) :
    0 ≤ overlapDaysInclusive aS aE bS bE := by
  unfold overlapDaysInclusive daysInclusive
  split <;> omega

theorem daysUsedLast180_nonneg (ref : ℤ) (t : List (ℤ × ℤ)) :
    0 ≤ daysUsedLast180 ref t := by
  unfold daysUsedLast180
  apply List.sum_nonneg
  intro x hx
  obtain ⟨p, _, hp⟩ := List.mem_map.mp hx
  exact hp ▸ overlapDaysInclusive_nonneg _ _ _ _

/-- The bounded loop of `maxStayDays` stops at the first violation `d0` and
returns `d0 - 1`. -/
theorem maxStayLoop_spec (E : ℤ) (S : List (ℤ × ℤ)) (d0 : ℕ) (hd0 : d0 < 366)
    (hstop : 90 < daysUsedLast180 (E + d0) S +
      overlapDaysInclusive (E + d0 - 179) (E + d0) E (E + d0))
    (hmin : ∀ j : ℕ, j < d0 → daysUsedLast180 (E + j) S +
      overlapDaysInclusive (E + j - 179) (E + j) E (E + j) ≤ 90) :
    ∀ fuel k, k + fuel = 366 → k ≤ d0 → maxStayLoop E S k fuel = d0 - 1 := by
  intro fuel
  induction fuel with
  | zero => intro k hk hkd; omega
  | succ f ih =>
    intro k hk hkd
    rw [maxStayLoop]
    rcases Nat.lt_or_ge k d0 with hlt | hge
    · rw [if_neg (by have := hmin k hlt; omega)]
      exact ih (k + 1) (by omega) (by omega)
    · have : k = d0 := by omega
      subst this
      rw [if_pos hstop]

/-- The stop condition of `maxStayDays` always fires by `d = 90`: the
candidate stay alone contributes `d + 1 > 90` window days there. -/
theorem maxStay_stop_exists (E : ℤ) (S : List (ℤ × ℤ)) :
    ∃ d : ℕ, d < 366 ∧ 90 < daysUsedLast180 (E + d) S +
      overlapDaysInclusive (E + d - 179) (E + d) E (E + d) := by
  refine ⟨90, by omega, ?_⟩
  have h1 := daysUsedLast180_nonneg (E + (90 : ℕ)) S
  have h2 : overlapDaysInclusive (E + (90 : ℕ) - 179) (E + (90 : ℕ)) E (E + (90 : ℕ)) = 91 := by
    have hc : ((90 : ℕ) : ℤ) = 90 := by norm_num
    rw [hc]
    unfold overlapDaysInclusive daysInclusive
    rw [max_eq_right (by omega : E + 90 - 179 ≤ E), min_self]
    rw [if_neg (by omega), if_neg (by omega)]
    ring
  omega

/-- The bounded loop of `nextSafeEntryDate` returns the first compliant
day when one exists within its fuel. -/
theorem nextSafeLoop_found (D : ℤ) (S : List (ℤ × ℤ)) (j0 : ℕ) (hj0 : j0 ≤ 729)
    (hpos : 0 < remainingLast180 (D + j0) S)
    (hmin : ∀ j : ℕ, j < j0 → remainingLast180 (D + j) S ≤ 0) :
    ∀ fuel i, i + fuel = 730 → i ≤ j0 → nextSafeLoop D S (D + i) fuel = D + j0 := by
  intro fuel
  induction fuel with
  | zero => intro i hi hij; omega
  | succ f ih =>
    intro i hi hij
    rw [nextSafeLoop]
    rcases Nat.lt_or_ge i j0 with hlt | hge
    · rw [if_neg (by have := hmin i hlt; omega)]
      have harg : D + (i : ℤ) + 1 = D + ((i + 1 : ℕ) : ℤ) := by push_cast; ring
      rw [harg]
      exact ih (i + 1) (by omega) (by omega)
    · have : i = j0 := by omega
      subst this
      rw [if_pos hpos]

/-- The bounded loop of `nextSafeEntryDate` falls back to the start day
when no day within its fuel is compliant. -/
theorem nextSafeLoop_exhaust (D : ℤ) (S : List (ℤ × ℤ))
    (h : ∀ j : ℕ, j ≤ 729 → remainingLast180 (D + j) S ≤ 0) :
    ∀ (fuel : ℕ) (i : ℕ), i + fuel = 730 → nextSafeLoop D S (D + i) fuel = D := by
  intro fuel
  induction fuel with
  | zero => intro i hi; rfl
  | succ f ih =>
    intro i hi
    rw [nextSafeLoop]
    rw [if_neg (by have := h i (by omega); omega)]
    have harg : D + (i : ℤ) + 1 = D + ((i + 1 : ℕ) : ℤ) := by push_cast; ring
    rw [harg]
    exact ih (i + 1) (by omega)

/-! ### Counting lemmas: overlap sums as distinct-day counts -/

/-- The inclusive overlap is the number of days common to the interval and
the window. -/
theorem overlapDaysInclusive_eq_card (ws we a b : ℤ) :
    overlapDaysInclusive ws we a b =
      ((Finset.Icc a b ∩ Finset.Icc ws we).card : ℤ) := by
  have hicc : Finset.Icc a b ∩ Finset.Icc ws we = Finset.Icc (max ws a) (min we b) := by
    apply Finset.ext
    intro z
    simp only [Finset.mem_inter, Finset.mem_Icc, le_min_iff, max_le_iff]
    constructor <;> intro hz <;> omega
  rw [hicc, Int.card_Icc]
  unfold overlapDaysInclusive daysInclusive
  split <;> omega

/-- The head of a canonical gap-separated list is strictly left of every
later interval. -/
theorem gap_head : ∀ (t : List (ℤ × ℤ)) (a : ℤ × ℤ), (∀ p ∈ a :: t, p.1 ≤ p.2) →
    List.Chain' (fun x y => x.2 + 1 < y.1) (a :: t) → ∀ p ∈ t, a.2 + 1 < p.1 := by
  intro t
  induction t with
  | nil => intro a _ _ p hp; cases hp
  | cons b t' ih =>
    intro a hc hchain p hp
    rw [List.chain'_cons] at hchain
    rcases List.mem_cons.mp hp with rfl | hp'
    · exact hchain.1
    · have hb := ih b (fun q hq => hc q (List.mem_cons_of_mem a hq)) hchain.2 p hp'
      have hbc := hc b (List.mem_cons_of_mem a (List.mem_cons_self b t'))
      omega

/-- Summing inclusive window overlaps over a canonical gap-separated list
counts each covered window day exactly once. -/
theorem sum_overlap_eq_card (ws we : ℤ) :
    ∀ l : List (ℤ × ℤ), (∀ p ∈ l, p.1 ≤ p.2) →
    List.Chain' (fun x y => x.2 + 1 < y.1) l →
    ((l.map (fun p => overlapDaysInclusive ws we p.1 p.2)).sum =
      ((Finset.Icc ws we).filter (fun z => ∃ p ∈ l, p.1 ≤ z ∧ z ≤ p.2)).card) := by
  intro l
  induction l with
  | nil => simp
  | cons a t ih =>
    intro hc hchain
    have hct : ∀ p ∈ t, p.1 ≤ p.2 := fun p hp => hc p (List.mem_cons_of_mem a hp)
    have hchaint : List.Chain' (fun x y => x.2 + 1 < y.1) t := hchain.tail
    have hhead := gap_head t a hc hchain
    rw [List.map_cons, List.sum_cons, ih hct hchaint,
      overlapDaysInclusive_eq_card ws we a.1 a.2]
    have hsplit : (Finset.Icc ws we).filter (fun z => ∃ p ∈ a :: t, p.1 ≤ z ∧ z ≤ p.2) =
        (Finset.Icc a.1 a.2 ∩ Finset.Icc ws we) ∪
          (Finset.Icc ws we).filter (fun z => ∃ p ∈ t, p.1 ≤ z ∧ z ≤ p.2) := by
      apply Finset.ext
      intro z
      simp only [Finset.mem_filter, Finset.mem_union, Finset.mem_inter, Finset.mem_Icc,
        List.mem_cons]
      constructor
      · rintro ⟨hzw, p, (rfl | hp), hz1, hz2⟩
        · exact Or.inl ⟨⟨hz1, hz2⟩, hzw⟩
        · exact Or.inr ⟨hzw, p, hp, hz1, hz2⟩
      · rintro (⟨⟨hz1, hz2⟩, hzw⟩ | ⟨hzw, p, hp, hz1, hz2⟩)
        · exact ⟨hzw, a, Or.inl rfl, hz1, hz2⟩
        · exact ⟨hzw, p, Or.inr hp, hz1, hz2⟩
    have hdisj : Disjoint (Finset.Icc a.1 a.2 ∩ Finset.Icc ws we)
        ((Finset.Icc ws we).filter (fun z => ∃ p ∈ t, p.1 ≤ z ∧ z ≤ p.2)) := by
      rw [Finset.disjoint_left]
      intro z hz1 hz2
      simp only [Finset.mem_inter, Finset.mem_Icc] at hz1
      simp only [Finset.mem_filter] at hz2
      obtain ⟨p, hp, hpz1, hpz2⟩ := hz2.2
      have := hhead p hp
      omega
    rw [hsplit, Finset.card_union_of_disjoint hdisj]
    push_cast
    ring

/-! ## The string-level engine of `part_002`

`part_002` keeps trips as `{entry, exit}` pairs of `YYYY-MM-DD` strings:
its `normalizeTrips` decodes each pair through the codec (skipping pairs
with an undecodable endpoint), canonicalizes by swapping, sorts by entry,
sweep-merges, and renders the result back to strings; `computeUsedDays`
re-decodes the normalized strings and sums window overlaps. -/

/-- The decode/canonicalize loop of `part_002`'s `normalizeTrips`
(lines 57–63): pairs with an unparseable endpoint are skipped, reversed
pairs are swapped. -/
def decodeCanon (l : List (String × String)) : List (ℤ × ℤ) :=
  l.filterMap (fun t =>
    match toDayIndex t.1, toDayIndex t.2 with
    | some a, some b => some (if a ≤ b then (a, b) else (b, a))
    | _, _ => none)

/-- `part_002`'s `normalizeTrips`: decode/canonicalize, sort by entry,
sweep-merge, render back to `YYYY-MM-DD` strings. -/
def normalizeTripsS (l : List (String × String)) : List (String × String) :=
  (mergeSorted (List.insertionSort entryLE (decodeCanon l))).map
    (fun p => (fromDayIndex p.1, fromDayIndex p.2))

/-- `part_002`'s `computeUsedDays`: normalize, re-decode each normalized
pair (skipping, as the code does, any that fails), clip to the window
`[asOf - 179, asOf]` and sum the inclusive day counts. -/
def computeUsedDays (asOf : ℤ) (src : List (String × String)) : ℤ :=
  ((normalizeTripsS src).filterMap (fun t =>
    match toDayIndex t.1, toDayIndex t.2 with
    | some s, some e => some (daysInclusive (max s (asOf - 179)) (min e asOf))
    | _, _ => none)).sum

/-- An integer the codec can emit as a day index. -/
def IsEmittedIndex (i : ℤ) : Prop := ∃ s : String, toDayIndex s = some i

/-- Both coordinates of every decoded pair are emitted indices, and each
decoded pair is canonical. -/
theorem decodeCanon_coords (L : List (String × String)) :
    ∀ p ∈ decodeCanon L, (IsEmittedIndex p.1 ∧ IsEmittedIndex p.2) ∧ p.1 ≤ p.2 := by
  induction L with
  | nil => intro p hp; cases hp
  | cons t L' ih =>
    intro p hp
    unfold decodeCanon at hp
    rw [List.filterMap_cons] at hp
    rcases h1 : toDayIndex t.1 with _ | a <;> rw [h1] at hp
    · exact ih p hp
    rcases h2 : toDayIndex t.2 with _ | b <;> rw [h2] at hp
    · exact ih p hp
    simp only [List.mem_cons] at hp
    rcases hp with rfl | hp'
    · split
      · exact ⟨⟨⟨t.1, h1⟩, ⟨t.2, h2⟩⟩, by assumption⟩
      · exact ⟨⟨⟨t.2, h2⟩, ⟨t.1, h1⟩⟩, by omega⟩
    · exact ih p hp'

/-- Clipping to the window commutes with the argument order used by
`computeUsedDays`. -/
theorem overlap_eq_clip (ws we s e : ℤ) :
    daysInclusive (max s ws) (min e we) = overlapDaysInclusive ws we s e := by
  unfold overlapDaysInclusive daysInclusive
  rw [max_comm ws s, min_comm we e]
  split <;> omega

/-- On lists of emitted index pairs, the re-decode step of
`computeUsedDays` never skips, and computes exactly the window overlap. -/
theorem filterMap_redecode (asOf : ℤ) :
    ∀ l : List (ℤ × ℤ), (∀ p ∈ l, IsEmittedIndex p.1 ∧ IsEmittedIndex p.2) →
    (l.map (fun p => (fromDayIndex p.1, fromDayIndex p.2))).filterMap (fun t =>
      match toDayIndex t.1, toDayIndex t.2 with
      | some s, some e => some (daysInclusive (max s (asOf - 179)) (min e asOf))
      | _, _ => none) =
    l.map (fun p => overlapDaysInclusive (asOf - 179) asOf p.1 p.2) := by
  intro l
  induction l with
  | nil => intro _; rfl
  | cons a l' ih =>
    intro hall
    obtain ⟨⟨s1, hs1⟩, ⟨s2, hs2⟩⟩ := hall a (List.mem_cons_self a l')
    have h1 : toDayIndex (fromDayIndex a.1) = some a.1 :=
      (toDayIndex_some_roundtrip s1 a.1 hs1).2
    have h2 : toDayIndex (fromDayIndex a.2) = some a.2 :=
      (toDayIndex_some_roundtrip s2 a.2 hs2).2
    rw [List.map_cons, List.filterMap_cons]
    dsimp only
    rw [h1, h2]
    dsimp only
    rw [ih (fun p hp => hall p (List.mem_cons_of_mem a hp)), overlap_eq_clip,
      List.map_cons]

/-- `computeUsedDays` as the sum of window overlaps over the merged
decoded intervals. -/
theorem computeUsedDays_eq_sum (asOf : ℤ) (L : List (String × String)) :
    computeUsedDays asOf L =
      ((mergeSorted (List.insertionSort entryLE (decodeCanon L))).map
        (fun p => overlapDaysInclusive (asOf - 179) asOf p.1 p.2)).sum := by
  unfold computeUsedDays normalizeTripsS
  rw [filterMap_redecode asOf _
    (normalizeCore_coords IsEmittedIndex _ (fun p hp => (decodeCanon_coords L p hp).1))]

/-- Decoding skips exactly the pairs with an unparseable endpoint: the
decoded list of a raw list equals that of its fully-parseable sublist. -/
theorem decodeCanon_filter : ∀ L : List (String × String),
    decodeCanon (L.filter (fun t => (toDayIndex t.1).isSome && (toDayIndex t.2).isSome)) =
      decodeCanon L := by
  intro L
  unfold decodeCanon
  induction L with
  | nil => rfl
  | cons t L' ih =>
    rw [List.filter_cons]
    by_cases hp : ((toDayIndex t.1).isSome && (toDayIndex t.2).isSome) = true
    · rw [if_pos hp, List.filterMap_cons, List.filterMap_cons, ih]
    · rw [if_neg hp, List.filterMap_cons]
      have hft : (match toDayIndex t.1, toDayIndex t.2 with
          | some a, some b => some (if a ≤ b then (a, b) else (b, a))
          | _, _ => none) = (none : Option (ℤ × ℤ)) := by
        rcases h1 : toDayIndex t.1 with _ | a
        · rfl
        · rcases h2 : toDayIndex t.2 with _ | b
          · rfl
          · exfalso
            apply hp
            rw [h1, h2]
            rfl
      rw [hft]
      exact ih

/-! ## The claims -/

/-- C1: for every reference day and raw trip list, `computeUsedDays`
equals the number of distinct calendar days in the trailing 180-day window
`[refDay − 179, refDay]` that lie inside at least one successfully
decoded, endpoint-canonicalized interval of the list — each day counted
once however many raw trips cover it, and intervals outside the window
contributing nothing. -/
theorem claim1_usedDays_counts_distinct_window_days (refDay : ℤ)
    (L : List (String × String)) :
    computeUsedDays refDay L =
      (((Finset.Icc (refDay - 179) refDay).filter
        (fun day => ∃ p ∈ decodeCanon L, p.1 ≤ day ∧ day ≤ p.2)).card : ℤ) := by
  rw [computeUsedDays_eq_sum]
  have hcanon : ∀ p ∈ decodeCanon L, p.1 ≤ p.2 := fun p hp => (decodeCanon_coords L p hp).2
  obtain ⟨hnc, hng⟩ := normalizeCore_invariant (decodeCanon L) hcanon
  rw [sum_overlap_eq_card (refDay - 179) refDay _ hnc hng]
  have hfilter : (Finset.Icc (refDay - 179) refDay).filter
      (fun z => ∃ p ∈ mergeSorted (List.insertionSort entryLE (decodeCanon L)),
        p.1 ≤ z ∧ z ≤ p.2) =
      (Finset.Icc (refDay - 179) refDay).filter
        (fun day => ∃ p ∈ decodeCanon L, p.1 ≤ day ∧ day ≤ p.2) :=
    Finset.filter_congr (fun z _ => normalizeCore_covered z (decodeCanon L))
  rw [hfilter]

/-- C2: `maxStayDays` stops at the first simulated day `d0` on which the
existing usage plus the candidate stay's own window overlap exceeds 90,
and returns `max (0, d0 − 1)` (in `ℕ`, `d0 - 1`). -/
theorem claim2_maxStay_first_violation (E : ℤ) (S : List (ℤ × ℤ)) (d0 : ℕ)
    (h366 : d0 < 366)
    (hstop : 90 < daysUsedLast180 (E + d0) S +
      overlapDaysInclusive (E + d0 - 179) (E + d0) E (E + d0))
    (hmin : ∀ j : ℕ, j < d0 → daysUsedLast180 (E + j) S +
      overlapDaysInclusive (E + j - 179) (E + j) E (E + j) ≤ 90) :
    maxStayDays E S = d0 - 1 :=
  maxStayLoop_spec E S d0 h366 hstop hmin 366 0 rfl (Nat.zero_le _)

/-- Witness for C2: with no recorded trips and entry day 0, the first
violation is at `d0 = 90` and `maxStayDays` returns 89. -/
theorem claim2_maxStay_first_violation_witness : maxStayDays 0 [] = 89 :=
  claim2_maxStay_first_violation 0 [] 90 (by decide) (by decide) (by decide)

/-- C4: `nextSafeEntryDate` returns the earliest day `d` with
`D ≤ d ≤ D + 729` whose remaining allowance is positive; when no day in
that range qualifies, it returns `D` unchanged. -/
theorem claim4_nextSafe_earliest_compliant (D : ℤ) (S : List (ℤ × ℤ)) :
    ((∃ d : ℤ, D ≤ d ∧ d ≤ D + 729 ∧ 0 < remainingLast180 d S) →
      D ≤ nextSafeEntryDate D S ∧ nextSafeEntryDate D S ≤ D + 729 ∧
        0 < remainingLast180 (nextSafeEntryDate D S) S ∧
        (∀ d : ℤ, D ≤ d → d ≤ D + 729 → 0 < remainingLast180 d S →
          nextSafeEntryDate D S ≤ d)) ∧
    ((∀ d : ℤ, D ≤ d → d ≤ D + 729 → remainingLast180 d S ≤ 0) →
      nextSafeEntryDate D S = D) := by
  constructor
  · rintro ⟨d, hd1, hd2, hd3⟩
    have hex : ∃ j : ℕ, 0 < remainingLast180 (D + j) S := by
      refine ⟨(d - D).toNat, ?_⟩
      have harg : D + ((d - D).toNat : ℤ) = d := by omega
      rw [harg]
      exact hd3
    set j0 := Nat.find hex with hj0def
    have hj0P : 0 < remainingLast180 (D + j0) S := Nat.find_spec hex
    have hj0min : ∀ j : ℕ, j < j0 → remainingLast180 (D + j) S ≤ 0 := by
      intro j hj
      have := Nat.find_min hex hj
      omega
    have hj0le : j0 ≤ 729 := by
      have h1 : j0 ≤ (d - D).toNat := by
        apply Nat.find_min' hex
        have harg : D + ((d - D).toNat : ℤ) = d := by omega
        rw [harg]
        exact hd3
      omega
    have hval : nextSafeEntryDate D S = D + j0 := by
      unfold nextSafeEntryDate
      have := nextSafeLoop_found D S j0 hj0le hj0P hj0min 730 0 rfl (Nat.zero_le _)
      simpa using this
    refine ⟨by omega, by omega, by rw [hval]; exact hj0P, ?_⟩
    intro d' hd'1 hd'2 hd'3
    have hP' : 0 < remainingLast180 (D + ((d' - D).toNat : ℕ)) S := by
      have harg : D + (((d' - D).toNat : ℕ) : ℤ) = d' := by omega
      rw [harg]
      exact hd'3
    have := Nat.find_min' hex hP'
    omega
  · intro h
    have h' : ∀ j : ℕ, j ≤ 729 → remainingLast180 (D + j) S ≤ 0 := by
      intro j hj
      exact h (D + j) (by omega) (by omega)
    have := nextSafeLoop_exhaust D S h' 730 0 rfl
    unfold nextSafeEntryDate
    simpa using this

/-- Witness for C4: with one trip using all 90 allowance days through day
0, the next safe entry from day 0 is day 91; from an empty history the
fallback branch is never needed and day 5 is immediately compliant. -/
theorem claim4_nextSafe_earliest_compliant_witness :
    (0 : ℤ) ≤ nextSafeEntryDate 0 [((-89 : ℤ), 0)] ∧
      nextSafeEntryDate 0 [((-89 : ℤ), 0)] ≤ 0 + 729 ∧
      0 < remainingLast180 (nextSafeEntryDate 0 [((-89 : ℤ), 0)]) [((-89 : ℤ), 0)] :=
  have h := (claim4_nextSafe_earliest_compliant 0 [((-89 : ℤ), 0)]).1
    ⟨91, by decide, by decide, by decide⟩
  ⟨h.1, h.2.1, h.2.2.1⟩

/-- C5: `latestExit` equals `entry + maxStayDays − 1` whenever
`maxStayDays` is positive, and reports absence (`none`, not a sentinel
date) when `maxStayDays` is zero. -/
theorem claim5_latestExit_consistency (E : ℤ) (S : List (ℤ × ℤ)) :
    (0 < maxStayDays E S →
      latestExit E S = some (E + (maxStayDays E S : ℤ) - 1)) ∧
    (maxStayDays E S = 0 → latestExit E S = none) := by
  constructor
  · intro h
    unfold latestExit
    rw [if_neg (by omega)]
  · intro h
    unfold latestExit
    rw [if_pos (by omega)]

/-- Witness for C5: an empty history gives `maxStayDays = 89` and latest
exit day 88; a history that exhausts the allowance gives `none`. -/
theorem claim5_latestExit_consistency_witness :
    latestExit 0 [] = some 88 ∧ latestExit 0 [((-100 : ℤ), 0)] = none := by
  constructor
  · have h := (claim5_latestExit_consistency 0 []).1 (by decide)
    rw [h]
    decide
  · exact (claim5_latestExit_consistency 0 [((-100 : ℤ), 0)]).2 (by decide)

/-- C6: the output of `normalizeTrips` satisfies the IntervalSet
invariant: every interval has entry ≤ exit, the sequence is sorted
ascending by entry, and each adjacent pair is separated by a strict gap of
at least one full free day (`b.entry > a.exit + 1`). -/
theorem claim6_normalize_invariant (L : List (ℤ × ℤ)) :
    (∀ p ∈ normalizeTrips L, p.1 ≤ p.2) ∧
      List.Chain' entryLE (normalizeTrips L) ∧
      List.Chain' (fun a b => a.2 + 1 < b.1) (normalizeTrips L) := by
  have hcanon : ∀ p ∈ L.map clampTrip, p.1 ≤ p.2 := by
    intro p hp
    obtain ⟨q, _, rfl⟩ := List.mem_map.mp hp
    exact clampTrip_canon q
  obtain ⟨hc, hg⟩ := normalizeCore_invariant (L.map clampTrip) hcanon
  exact ⟨hc, chain_entryLE_of_gap _ hc hg, hg⟩

/-- C7: normalization is idempotent — normalizing an already-normalized
list returns the identical list. -/
theorem claim7_normalize_idempotent (L : List (ℤ × ℤ)) :
    normalizeTrips (normalizeTrips L) = normalizeTrips L := by
  have hcanon : ∀ p ∈ L.map clampTrip, p.1 ≤ p.2 := by
    intro p hp
    obtain ⟨q, _, rfl⟩ := List.mem_map.mp hp
    exact clampTrip_canon q
  obtain ⟨hc, hg⟩ := normalizeCore_invariant (L.map clampTrip) hcanon
  show normalizeTrips (mergeSorted (List.insertionSort entryLE (L.map clampTrip))) = _
  unfold normalizeTrips
  rw [map_clampTrip_eq_self _ hc]
  rw [List.Sorted.insertionSort_eq (List.chain'_iff_pairwise.mp (chain_entryLE_of_gap _ hc hg))]
  rcases hout : mergeSorted (List.insertionSort entryLE (L.map clampTrip)) with _ | ⟨h, t⟩
  · rfl
  · rw [hout] at hg
    show mergeRun h t = h :: t
    exact mergeRun_eq_self t h hg

/-- C8: a raw pair whose endpoints are reversed (`entry > exit`) is
reinterpreted by swapping — normalizing a list containing the reversed
pair gives exactly the same result as normalizing the list with that
pair's endpoints swapped; the pair is never rejected. -/
theorem claim8_reversed_pair_swapped (l1 l2 : List (ℤ × ℤ)) (a b : ℤ) (h : b < a) :
    normalizeTrips (l1 ++ (a, b) :: l2) = normalizeTrips (l1 ++ (b, a) :: l2) := by
  unfold normalizeTrips
  have h1 : clampTrip (a, b) = (b, a) := by
    unfold clampTrip
    rw [if_neg (by dsimp only; omega)]
  have h2 : clampTrip (b, a) = (b, a) := by
    unfold clampTrip
    rw [if_pos (by dsimp only; omega)]
  rw [List.map_append, List.map_append, List.map_cons, List.map_cons, h1, h2]

/-- Witness for C8: `[(5, 2)]` and `[(2, 5)]` normalize identically. -/
theorem claim8_reversed_pair_swapped_witness :
    normalizeTrips [((5 : ℤ), (2 : ℤ))] = normalizeTrips [((2 : ℤ), (5 : ℤ))] :=
  claim8_reversed_pair_swapped [] [] 5 2 (by decide)

/-- C9: normalization drops every raw pair with an endpoint that fails to
parse and continues with the rest — the result equals normalizing the
sublist of fully parseable pairs. -/
theorem claim9_bad_pairs_skipped (L : List (String × String)) :
    normalizeTripsS L = normalizeTripsS
      (L.filter (fun t => (toDayIndex t.1).isSome && (toDayIndex t.2).isSome)) := by
  unfold normalizeTripsS
  rw [decodeCanon_filter]

/-- C10: the day-index codec is a round-trip pair — every string accepted
by `parseYMD` survives `toDayIndex` then `fromDayIndex` unchanged, and
every day index in the representable range 0 … 2932896 (1970-01-01
through 9999-12-31) survives `fromDayIndex` then `toDayIndex`. -/
theorem claim10_codec_roundtrip :
    (∀ (s : String) (i : ℤ), toDayIndex s = some i → fromDayIndex i = s) ∧
    (∀ i : ℤ, 0 ≤ i → i ≤ 2932896 → toDayIndex (fromDayIndex i) = some i) :=
  ⟨fun s i h => (toDayIndex_some_roundtrip s i h).1,
   fun i h0 h1 => fromDayIndex_roundtrip i h0 h1⟩

/-- Witness for C10: both round trips at concrete values
(`2026-02-19` ↔ day index 20503, and day index 0 ↔ `1970-01-01`). -/
theorem claim10_codec_roundtrip_witness :
    fromDayIndex 20503 = "2026-02-19" ∧ toDayIndex (fromDayIndex 0) = some 0 :=
  ⟨claim10_codec_roundtrip.1 "2026-02-19" 20503 (by decide),
   claim10_codec_roundtrip.2 0 (by decide) (by decide)⟩

/-- C3: if no `d < 366` makes existing usage plus the candidate stay's
window overlap exceed 90, `maxStayDays` returns 0 stay days (first
conjunct, the claim as stated).  The second conjunct records that this
situation is in fact unreachable: the stop condition provably fires by
`d = 90` for every entry day and interval set — the candidate stay alone
contributes `d + 1 > 90` window days there — so the 366-iteration bound of
`maxStayDays` is never exhausted (and no error is ever raised; were the
bound exhausted, the loop's `Math.max(0, days - 1)` would yield 365).  The
first conjunct therefore holds vacuously. -/
theorem claim3_bound_exhaustion_vacuous (E : ℤ) (S : List (ℤ × ℤ)) :
    ((∀ d : ℕ, d < 366 → daysUsedLast180 (E + d) S +
        overlapDaysInclusive (E + d - 179) (E + d) E (E + d) ≤ 90) →
      maxStayDays E S = 0) ∧
    (∃ d : ℕ, d < 366 ∧ 90 < daysUsedLast180 (E + d) S +
      overlapDaysInclusive (E + d - 179) (E + d) E (E + d)) := by
  obtain ⟨d, hd, hstop⟩ := maxStay_stop_exists E S
  exact ⟨fun h => absurd hstop (by have := h d hd; omega), ⟨d, hd, hstop⟩⟩
